import Mathlib

/-!
# Verification of the go-p2p core swarm stack

Shallow embedding of the fragmenting swarm (package `fragswarm`), the
Noise secure swarm (package `noiseswarm`), the dynamic multiplexer channel
(package `dynmux`) and the Kademlia XOR cache (package `kademlia`).

Byte strings are modelled as `List Nat` (each element a byte value),
Go `int` as `Int` where sign matters and as `Nat` where the quantity is a
length or an index.  Go machine-integer conversions (`uint8(x)`,
`uint32(x)`) are modelled as `% 256` / `% 2 ^ 32`.  Maps are modelled as
association lists; Go map iteration order is unspecified, we fix list
order as the iteration order (a deterministic refinement).
-/

set_option maxHeartbeats 1000000

namespace P2P


/-! ## Go standard library: `encoding/binary` unsigned varints

`binary.PutUvarint` writes little-endian base-128 groups, setting the
continuation bit `0x80` on every byte except the last. -/

def putUvarint (n : Nat) : List Nat :=
  if _h : n < 128 then [n]
  else (n % 128 + 128) :: putUvarint (n / 128)
decreasing_by exact Nat.div_lt_self (by omega) (by omega)

/-- `binary.Uvarint` decoding loop.  `i` is the byte index, `s` the current
shift, `x` the accumulator.  Go returns `(0, 0)` when the buffer ends before
the final byte and `(0, -(i+1))` on 64-bit overflow; both are failures for
every caller in this code base, so they are both modelled as `none`.
Go accumulates with `x | uint64(b&0x7f)<<s`; the groups occupy disjoint bit
ranges on every path that returns a value, so `|` is addition, and no
`uint64` wrap-around can occur before an overflow failure is returned. -/
def uvarintAux : List Nat → Nat → Nat → Nat → Option (Nat × Nat)
  | [], _, _, _ => none
  | b :: bs, i, s, x =>
    if i = 10 then none
    else if b < 128 then
      if i = 9 ∧ 1 < b then none
      else some (x + b * 2 ^ s, i + 1)
    else uvarintAux bs (i + 1) (s + 7) (x + b % 128 * 2 ^ s)

def uvarint (bs : List Nat) : Option (Nat × Nat) := uvarintAux bs 0 0 0

/-! ## Package `fragswarm`: message framing

`newMessage(id uint32, part uint8, total uint8, data)` builds
`uvarint(id) || uvarint(part) || uvarint(total) || data`.  The Go
signature already carries the truncated machine types; the truncating
conversions `uint32(...)` / `uint8(...)` appear at the call sites below,
exactly as in the source. -/

def newMessage (id part total : Nat) (data : List Nat) : List Nat :=
  putUvarint id ++ putUvarint part ++ putUvarint total ++ data

/-- The field-reading loop of `parseMessage`: three `binary.Uvarint` calls,
each starting at the running offset `n`; any read with `n2 < 1` aborts.
Returns the three raw `uint64` fields and the total number of bytes read. -/
def uvarint3 (x : List Nat) : Option ((Nat × Nat × Nat) × Nat) :=
  match uvarint x with
  | none => none
  | some (f0, n0) =>
    match uvarint (x.drop n0) with
    | none => none
    | some (f1, n1) =>
      match uvarint (x.drop (n0 + n1)) with
      | none => none
      | some (f2, n2) => some ((f0, f1, f2), n0 + n1 + n2)

/-- `parseMessage`: read the three uvarint fields, convert them with
`uint32(fields[0])`, `uint8(fields[1])`, `uint8(fields[2])`, reject when
`part >= total` (compared after the `uint8` conversions), and return the
remaining bytes `x[n:]` as the data. -/
def parseMessage (x : List Nat) : Option (Nat × Nat × Nat × List Nat) :=
  match uvarint3 x with
  | none => none
  | some ((f0, f1, f2), n) =>
    if f1 % 256 ≥ f2 % 256 then none
    else some (f0 % 2 ^ 32, f1 % 256, f2 % 256, x.drop n)

/-! ## Package `fragswarm`: `swarm.Tell` (the sending side) -/

/-- The part count computed by `swarm.Tell`:
`total := len(data)/underMTU`, incremented when `len(data)%underMTU > 0`,
and forced to `1` when it is `0`.  This is the `underMTU > 0` path; the
`Int`-valued computation including the non-positive cases is
`fragSliceBounds` below. -/
def fragTotal (len chunk : Nat) : Nat :=
  let t := len / chunk + (if len % chunk > 0 then 1 else 0)
  if t = 0 then 1 else t

/-- One slice `data[start:end]` with
`end := len(data); if start+underMTU < end { end = start + underMTU }`. -/
def fragSlice (p : List Nat) (chunk start : Nat) : List Nat :=
  let e := if start + chunk < p.length then start + chunk else p.length
  (p.drop start).take (e - start)

/-- The list of framed fragments `swarm.Tell` hands to the underlying
swarm for one payload `p`, in part order (the source sends them from an
`errgroup`, so arrival order is not guaranteed; we study in-order
arrival).  `id` is the per-address `uint32` counter value. -/
def fragTell (id chunk : Nat) (p : List Nat) : List (List Nat) :=
  let total := fragTotal p.length chunk
  if total = 1 then [newMessage (id % 2 ^ 32) 0 1 p]
  else (List.range total).map fun part =>
    newMessage (id % 2 ^ 32) (part % 256) (total % 256)
      (fragSlice p chunk (chunk * part))

/-! ## Package `fragswarm`: the aggregator and `handleTell`

An aggregator holds `parts [][]byte`, allocated as `make([][]byte, total)`
from the *first* part that arrives; a slot is `nil` until its part
arrives.  The aggregator map is keyed by `(src, msg id)`; the source
address is fixed in the scenarios below, so the key is the id. -/

def assembleParts (ps : List (Option (List Nat))) : List Nat :=
  (ps.map fun o => o.getD []).flatten

def aggLookup (id : Nat) :
    List (Nat × List (Option (List Nat))) → Option (List (Option (List Nat)))
  | [] => none
  | (k, v) :: rest => if k = id then some v else aggLookup id rest

def aggInsert (id : Nat) (v : List (Option (List Nat))) :
    List (Nat × List (Option (List Nat))) → List (Nat × List (Option (List Nat)))
  | [] => [(id, v)]
  | (k, w) :: rest =>
    if k = id then (id, v) :: rest else (k, w) :: aggInsert id v rest

def aggErase (id : Nat) :
    List (Nat × List (Option (List Nat))) → List (Nat × List (Option (List Nat)))
  | [] => []
  | (k, w) :: rest => if k = id then rest else (k, w) :: aggErase id rest

/-- One step of `swarm.handleTell` on an incoming lower-swarm payload.

* a parse error drops the message;
* `totalParts == 1` delivers the data immediately, skipping the aggregator;
* otherwise the aggregator for the message id is looked up (created with
  `make([][]byte, total)` slots on first use), `addPart` stores the part at
  its index (`a.parts[int(part)] = ...`; in every reachable use below
  `part < total = len(parts)`, where Go would otherwise panic), and when
  every slot is filled the concatenation is delivered and the aggregator
  deleted. -/
def stepTell (aggs : List (Nat × List (Option (List Nat)))) (payload : List Nat) :
    List (Nat × List (Option (List Nat))) × Option (List Nat) :=
  match parseMessage payload with
  | none => (aggs, none)
  | some (id, part, total, data) =>
    if total = 1 then (aggs, some data)
    else
      let ps0 := match aggLookup id aggs with
        | some ps => ps
        | none => List.replicate total none
      let ps := ps0.set part (some data)
      if ps.all Option.isSome then (aggErase id aggs, some (assembleParts ps))
      else (aggInsert id ps aggs, none)

/-- Run `handleTell` over a list of arriving payloads, collecting the
payloads delivered upward, in order. -/
def runLoop (aggs : List (Nat × List (Option (List Nat)))) :
    List (List Nat) → List (List Nat)
  | [] => []
  | m :: ms =>
    let st := stepTell aggs m
    st.2.toList ++ runLoop st.1 ms

def runTells (msgs : List (List Nat)) : List (List Nat) := runLoop [] msgs

/-! ## Fragment/assemble round trip: supporting lemmas -/

/-- The slice sent for part `j`. -/
def sliceAt (p : List Nat) (c j : Nat) : List Nat := fragSlice p c (c * j)

/-- The aggregator slot vector after parts `0 .. j-1` of a `t`-part
message have been stored. -/
def vecUpTo (p : List Nat) (c t j : Nat) : List (Option (List Nat)) :=
  (List.range t).map fun i => if i < j then some (sliceAt p c i) else none

/-! ## Package `fragswarm`: the `Int` arithmetic of `swarm.Tell` (claim C9)

Go `int` division truncates toward zero, which is `Int.tdiv` / `Int.tmod`.
`fragSliceBounds` runs exactly the index computation of `swarm.Tell`:
`underMTU := lower.MTU - Overhead`, `total := len/underMTU` (+1 on a
remainder, forced to 1 when 0) and, in the multi-part branch, the
`(start, end)` pair of every `data[start:end]` the part loop slices.
It returns `none` exactly when Go would divide by zero (a panic). -/

def maxVarintLen32 : Int := 5

/-- `Overhead = 3 * binary.MaxVarintLen32` (fragswarm). -/
def fragOverhead : Int := 3 * maxVarintLen32

def fragUnderMTU (lowerMTU : Int) : Int := lowerMTU - fragOverhead

def fragSliceBounds (dataLen : Nat) (lowerMTU : Int) : Option (List (Int × Int)) :=
  let under := fragUnderMTU lowerMTU
  if under = 0 then none
  else
    let len : Int := (dataLen : Int)
    let t0 := Int.tdiv len under + (if 0 < Int.tmod len under then 1 else 0)
    let total := if t0 = 0 then 1 else t0
    if total = 1 then some []
    else some ((List.range total.toNat).map fun (partIdx : Nat) =>
      let start := under * (partIdx : Int)
      let e := if start + under < len then start + under else len
      (start, e))

/-! ## Package `noiseswarm`: `withAnyReadySession` (claim C1)

The session cache lookup, the dial results and the callback are abstracted
as inputs: `ready` is the result of `getAnyReadySession`, `dials i` the
outcome of the i-th `dialSession` call (`none` = error), `fn` the caller
callback (`none` = nil error).  The outcome records the returned error and
whether `fn` was ever invoked (i.e. whether the payload was handed to a
session and hence to the underlying swarm). -/

inductive NoiseErr
  | wrongPeer
  | fnFailed
deriving DecidableEq

structure NoiseSession where
  remotePeerID : Nat
deriving DecidableEq

structure TellOutcome where
  err : Option NoiseErr
  fnCalled : Bool
deriving DecidableEq

def MaxDialAttempts : Nat := 10

/-- The dial loop of `withAnyReadySession`.  Inside the loop the source
writes `sess, err := s.dialSession(ctx, raddr.Addr)`, declaring a NEW
`err` that shadows the outer `var err error`; when the loop exhausts all
attempts, `return err` returns the outer, never-assigned (nil) error —
modelled by the `[]` branch returning `err = none`. -/
def dialLoop (want : Nat) (fn : NoiseSession → Option NoiseErr) :
    List (Option NoiseSession) → TellOutcome
  | [] => ⟨none, false⟩
  | d :: rest =>
    match d with
    | some sess =>
      if sess.remotePeerID ≠ want then ⟨some NoiseErr.wrongPeer, false⟩
      else ⟨fn sess, true⟩
    | none => dialLoop want fn rest

/-- `Swarm.withAnyReadySession`: use a cached ready session when its peer
matches (error `wrongPeer` when it does not), otherwise dial up to
`MaxDialAttempts` times. -/
def withAnyReadySession (ready : Option NoiseSession) (want : Nat)
    (dials : List (Option NoiseSession)) (fn : NoiseSession → Option NoiseErr) :
    TellOutcome :=
  match ready with
  | some sess =>
    if sess.remotePeerID ≠ want then ⟨some NoiseErr.wrongPeer, false⟩
    else ⟨fn sess, true⟩
  | none => dialLoop want fn (dials.take MaxDialAttempts)

/-! ## MTU of the three overlays (claim C4) -/

/-- `noiseswarm.Overhead = 4 + 16`. -/
def noiseOverhead : Int := 4 + 16

/-- noiseswarm `Swarm.MTU`: `s.swarm.MTU(ctx, target.Addr) - Overhead`. -/
def noiseMTU (lowerMTU : Int) : Int := lowerMTU - noiseOverhead

/-- fragswarm `swarm.MTU`: returns the configured `s.mtu`, independent of
the lower swarm (the lower MTU argument is unused, as in the source). -/
def fragMTU (configuredMTU lowerMTU : Int) : Int := configuredMTU

/-- dynmux `baseSwarm.MTU`: `s.m.s.MTU(ctx, addr) - channelSize`. -/
def muxChannelMTU (channelSize lowerMTU : Int) : Int := lowerMTU - channelSize

/-! ## `Close` of the three overlays (claim C8)

Each `Close` body is a straight-line sequence of calls; we record which
calls it makes, in order. -/

inductive CloseEffect
  | cancelBackground
  | lowerClose
  | askHubClose
  | tellHubClose
deriving DecidableEq

/-- noiseswarm `Swarm.Close`: `s.cf(); return s.swarm.Close()`. -/
def noiseCloseCalls : List CloseEffect :=
  [CloseEffect.cancelBackground, CloseEffect.lowerClose]

/-- fragswarm `swarm.Close`: `s.cf(); return s.Swarm.Close()`. -/
def fragCloseCalls : List CloseEffect :=
  [CloseEffect.cancelBackground, CloseEffect.lowerClose]

/-- dynmux `baseSwarm.Close`: closes its ask hub and tell hub with
`ErrSwarmClosed` and returns nil; it never calls `Close` on the shared
underlying swarm. -/
def muxChannelCloseCalls : List CloseEffect :=
  [CloseEffect.askHubClose, CloseEffect.tellHubClose]

/-! ## Package `kademlia`: the XOR cache

Entries carry an optional value: Go stores `interface{}`, whose `nil` is
`none` here, so `Get` returning `nil` — for an absent key or for a stored
nil value — is `Get` returning `none`.  Buckets are Go maps
`map[string]Entry`; we model a bucket as a list of entries and fix the
(unspecified) map iteration order to be list order; map insertion
replaces the entry with the same key, `getOne` picks the first iterated
entry, i.e. the list head. -/

structure Entry (V : Type) where
  key : List Nat
  value : Option V
deriving DecidableEq

structure Cache (V : Type) where
  locus : List Nat
  minPerBucket : Int
  count : Int
  max : Int
  buckets : List (List (Entry V))
deriving DecidableEq

/-- `NewCache(locus, max, minPerBucket)`.  The source panics when
`max < 1`; theorems below carry `1 ≤ max` as a hypothesis. -/
def NewCache (V : Type) (locus : List Nat) (mx mn : Int) : Cache V :=
  ⟨locus, mn, 0, mx, []⟩

/-- Modelled from the spec: `XORBytes(dst, a, b)` of the kademlia package
is not under src/.  Per the spec the distance is the byte-wise XOR of
locus and key; `dst` has the locus length, the first `min(|a|, |b|)`
bytes are XORed and the rest stay zero. -/
def xorBytes (dlen : Nat) (a b : List Nat) : List Nat :=
  (List.range dlen).map fun (i : Nat) =>
    if i < a.length ∧ i < b.length then Nat.xor (a.getD i 0) (b.getD i 0) else 0

/-- Modelled from the spec: `bits.LeadingZeros8` — leading zero bits of a
byte. -/
def leadingZeros8 (b : Nat) : Nat :=
  if 128 ≤ b then 0
  else if 64 ≤ b then 1
  else if 32 ≤ b then 2
  else if 16 ≤ b then 3
  else if 8 ≤ b then 4
  else if 4 ≤ b then 5
  else if 2 ≤ b then 6
  else if 1 ≤ b then 7
  else 8

/-- Modelled from the spec: `Leading0s` of the kademlia package is not
under src/; per the spec the bucket index is the number of leading zero
bits of the distance byte string. -/
def leading0s : List Nat → Nat
  | [] => 0
  | b :: bs =>
    if leadingZeros8 b < 8 then leadingZeros8 b else 8 + leading0s bs

/-- `bytes.Compare` (Go standard library): lexicographic byte-string
comparison, shorter prefix first; returns -1, 0 or 1. -/
def bytesCompare : List Nat → List Nat → Int
  | [], [] => 0
  | [], _ :: _ => -1
  | _ :: _, [] => 1
  | a :: as, b :: bs =>
    if a < b then -1 else if b < a then 1 else bytesCompare as bs

def Cache.bucketIndex (kc : Cache V) (key : List Nat) : Nat :=
  leading0s (xorBytes kc.locus.length kc.locus key)

/-- `Cache.bucket`: the bucket at the key index, or `none` (Go: a nil
map) when that bucket was never materialized. -/
def Cache.bucket (kc : Cache V) (key : List Nat) : Option (List (Entry V)) :=
  let i := kc.bucketIndex key
  if i < kc.buckets.length then some (kc.buckets.getD i []) else none

/-- Go map read `b[string(key)]`. -/
def bucketFind (b : List (Entry V)) (key : List Nat) : Option (Entry V) :=
  b.find? fun e => e.key == key

/-- Go map write `b[string(e.Key)] = e`: replace an existing entry with
the same key, insert otherwise. -/
def bucketInsert (b : List (Entry V)) (e : Entry V) : List (Entry V) :=
  if b.any (fun x => x.key == e.key)
  then b.map fun x => if x.key == e.key then e else x
  else e :: b

/-- `Cache.Get` returns the value at key.  Go returns `interface{}`:
`nil` both when the key is absent and when the stored value is nil. -/
def Cache.Get (kc : Cache V) (key : List Nat) : Option V :=
  match kc.bucket key with
  | none => none
  | some b =>
    match bucketFind b key with
    | none => none
    | some e => e.value

/-- `Cache.Contains`: `kc.Get(key) != nil`. -/
def Cache.Contains (kc : Cache V) (key : List Nat) : Bool :=
  (kc.Get key).isSome

/-- The scan of `Cache.evict`: the first bucket index (from 0 upward)
whose size exceeds `minPerBucket` and is nonzero. -/
def evictIdx (mn : Int) : List (List (Entry V)) → Option Nat
  | [] => none
  | b :: bs =>
    if mn < (b.length : Int) ∧ b.length ≠ 0 then some 0
    else (evictIdx mn bs).map (· + 1)

/-- `Cache.evict`: evict one entry (`getOne` = the first iterated entry,
modelled as the bucket head) from the first bucket exceeding the floor;
`none` and no change when no bucket qualifies. -/
def Cache.evict (kc : Cache V) : Cache V × Option (Entry V) :=
  match evictIdx kc.minPerBucket kc.buckets with
  | none => (kc, none)
  | some n =>
    match kc.buckets.getD n [] with
    | [] => (kc, none)
    | e :: rest =>
      (⟨kc.locus, kc.minPerBucket, kc.count - 1, kc.max,
        kc.buckets.set n ((e :: rest).eraseP fun x => x.key == e.key)⟩, some e)

/-- `Cache.Put`: insert or replace at the key bucket (materializing
buckets up to its index), bump the count on a fresh key, and evict when
the count exceeds `max`. -/
def Cache.Put (kc : Cache V) (key : List Nat) (v : Option V) :
    Cache V × Option (Entry V) :=
  let e : Entry V := ⟨key, v⟩
  let lz := kc.bucketIndex key
  let buckets := kc.buckets ++ List.replicate (lz + 1 - kc.buckets.length) []
  let b := buckets.getD lz []
  let count := if b.any (fun x => x.key == e.key) then kc.count else kc.count + 1
  let kc2 : Cache V :=
    ⟨kc.locus, kc.minPerBucket, count, kc.max, buckets.set lz (bucketInsert b e)⟩
  if count > kc.max then kc2.evict else (kc2, none)

/-- `Cache.Delete`: remove the entry at the key, decrement the count when
it existed. -/
def Cache.Delete (kc : Cache V) (key : List Nat) : Cache V × Option (Entry V) :=
  match kc.bucket key with
  | none => (kc, none)
  | some b =>
    match bucketFind b key with
    | none => (kc, none)
    | some e =>
      (⟨kc.locus, kc.minPerBucket, kc.count - 1, kc.max,
        kc.buckets.set (kc.bucketIndex key) (b.eraseP fun x => x.key == key)⟩,
        some e)

def Cache.Count (kc : Cache V) : Int := kc.count

/-- `Cache.WouldPut`: true when the count is below max or the key bucket
is not yet materialized; otherwise scan buckets `i-1, ..., 0` and return
true when one has size strictly BELOW the floor (the source comment says
it looks for something to evict, but the comparison is
`len(b) < kc.minPerBucket`).  The descending scan order is irrelevant to
the boolean result, so it is modelled with `any` over `range i`. -/
def Cache.WouldPut (kc : Cache V) (key : List Nat) : Bool :=
  let i := kc.bucketIndex key
  if kc.count + 1 ≤ kc.max ∨ i ≥ kc.buckets.length then true
  else
    (List.range i).any fun j =>
      decide (((kc.buckets.getD j []).length : Int) < kc.minPerBucket)

/-- `Cache.WouldAdd`: false when the key is contained, otherwise
`WouldPut`. -/
def Cache.WouldAdd (kc : Cache V) (key : List Nat) : Bool :=
  if kc.Contains key then false else kc.WouldPut key

/-- `Cache.Closest`.  The Go loop tracks `minDist` and assigns
`closestEntry = &e`; `e` is the per-loop range variable (Go 1.15), so
every assignment stores the same pointer, which after the loop refers to
the entry of the LAST iteration.  The fold mirrors the loop: it tracks
`minDist` and whether `closestEntry` was ever assigned; the returned
entry, when assigned, is the last iterated one. -/
def Cache.Closest (kc : Cache V) (key : List Nat) : Option (Entry V) :=
  match kc.bucket key with
  | none => none
  | some b =>
    let fin := b.foldl
      (fun (st : Option (List Nat) × Bool) e =>
        let dist := xorBytes kc.locus.length e.key key
        match st.1 with
        | none => (some dist, true)
        | some minDist =>
          if bytesCompare dist minDist < 0 then (some dist, true)
          else (some minDist, st.2))
      (none, false)
    if fin.2 then b.getLast? else none

/-- Operation sequences for the cache invariant (claim C3). -/
inductive CacheOp (V : Type) where
  | opPut (key : List Nat) (v : Option V)
  | opDelete (key : List Nat)

def applyOp (kc : Cache V) : CacheOp V → Cache V
  | CacheOp.opPut key v => (kc.Put key v).1
  | CacheOp.opDelete key => (kc.Delete key).1

def applyOps (kc : Cache V) (ops : List (CacheOp V)) : Cache V :=
  ops.foldl applyOp kc

/-- The total number of entries actually stored. -/
def sizeSum (kc : Cache V) : Nat := (kc.buckets.map List.length).sum

/-- The invariant of claim C3, tracked across operations: parameters are
unchanged, the count agrees with the stored-entry total, and — when the
floor is at most 0 — the count never exceeds `max`. -/
def CacheInv (mx mn : Int) (kc : Cache V) : Prop :=
  kc.max = mx ∧ kc.minPerBucket = mn ∧ kc.count = (sizeSum kc : Int)
    ∧ (mn ≤ 0 → kc.count ≤ mx)

/-! ## Claim C10: `Put(k, nil)` is invisible to `Get`/`Contains` -/

/-- Whether an entry with this key is physically stored (regardless of
its value) — what `Contains` cannot observe for nil values. -/
def Cache.hasKey (kc : Cache V) (key : List Nat) : Bool :=
  (kc.buckets.getD (kc.bucketIndex key) []).any fun x => x.key == key

/-! ## Theorems -/

theorem putUvarint_length_le : ∀ (k n : Nat), n < 2 ^ (7 * (k + 1)) →
    (putUvarint n).length ≤ k + 1 := by
  intro k
  induction k with
  | zero =>
    intro n hn
    have h : n < 128 := by norm_num at hn; omega
    rw [putUvarint]
    simp [h]
  | succ k ih =>
    intro n hn
    rw [putUvarint]
    by_cases h : n < 128
    · simp [h]
    · simp only [h, dite_false]
      have hdiv : n / 128 < 2 ^ (7 * (k + 1)) := by
        apply Nat.div_lt_of_lt_mul
        calc n < 2 ^ (7 * (k + 1 + 1)) := hn
        _ = 2 ^ (7 * (k + 1)) * 128 := by ring
        _ ≤ 128 * 2 ^ (7 * (k + 1)) := by omega
      have := ih (n / 128) hdiv
      simpa using this

theorem uvarintAux_append (n : Nat) : ∀ (i s x : Nat) (rest : List Nat),
    i + (putUvarint n).length ≤ 9 →
    uvarintAux (putUvarint n ++ rest) i s x
      = some (x + n * 2 ^ s, i + (putUvarint n).length) := by
  induction n using Nat.strong_induction_on with
  | _ n ih =>
    intro i s x rest hlen
    by_cases h : n < 128
    · rw [putUvarint] at hlen ⊢
      simp only [h, dite_true] at hlen ⊢
      have hi : ¬ i = 10 := by simp at hlen; omega
      have hi9 : ¬ (i = 9 ∧ 1 < n) := by simp at hlen; omega
      simp [uvarintAux, hi, h, hi9]
    · rw [putUvarint] at hlen ⊢
      simp only [h, dite_false] at hlen ⊢
      simp only [List.length_cons] at hlen
      have hi : ¬ i = 10 := by omega
      have hb : ¬ (n % 128 + 128 < 128) := by omega
      simp only [List.cons_append, uvarintAux, hi, if_false, hb, List.append_eq]
      have hrec := ih (n / 128) (Nat.div_lt_self (by omega) (by omega))
        (i + 1) (s + 7) (x + (n % 128 + 128) % 128 * 2 ^ s) rest (by omega)
      rw [hrec]
      congr 1
      simp only [Prod.mk.injEq, List.length_cons]
      constructor
      · have hmod : (n % 128 + 128) % 128 = n % 128 := by omega
        rw [hmod]
        have : 2 ^ (s + 7) = 2 ^ s * 128 := by ring
        rw [this]
        have hn : n % 128 + 128 * (n / 128) = n := by
          have := Nat.mod_add_div n 128
          omega
        calc x + n % 128 * 2 ^ s + n / 128 * (2 ^ s * 128)
            = x + (n % 128 + 128 * (n / 128)) * 2 ^ s := by ring
        _ = x + n * 2 ^ s := by rw [hn]
      · omega

theorem uvarint_spec (n : Nat) (rest : List Nat)
    (h : (putUvarint n).length ≤ 9) :
    uvarint (putUvarint n ++ rest) = some (n, (putUvarint n).length) := by
  have := uvarintAux_append n 0 0 0 rest (by omega)
  simpa [uvarint] using this

theorem putUvarint_length_le_of_lt_2_32 (n : Nat) (h : n < 2 ^ 32) :
    (putUvarint n).length ≤ 5 := by
  have : n < 2 ^ (7 * 5) := by omega
  exact putUvarint_length_le 4 n this

theorem putUvarint_length_le_of_lt_256 (n : Nat) (h : n < 256) :
    (putUvarint n).length ≤ 2 := by
  have : n < 2 ^ (7 * 2) := by omega
  exact putUvarint_length_le 1 n this

theorem fragSlice_eq_take (p : List Nat) (c s : Nat) :
    fragSlice p c s = (p.drop s).take c := by
  unfold fragSlice
  by_cases h : s + c < p.length
  · simp [h]
  · simp only [h, if_false]
    have hl : (p.drop s).length = p.length - s := List.length_drop s p
    rw [List.take_of_length_le (by omega), List.take_of_length_le (by omega)]

theorem flatten_chunks (p : List Nat) (c : Nat) : ∀ t : Nat,
    ((List.range t).map fun i => (p.drop (c * i)).take c).flatten
      = p.take (c * t) := by
  intro t
  induction t with
  | zero => simp
  | succ t ih =>
    rw [List.range_succ, List.map_append, List.flatten_append, ih]
    simp only [List.map_cons, List.map_nil, List.flatten_cons, List.flatten_nil,
      List.append_nil]
    rw [Nat.mul_succ, List.take_add]

theorem vecUpTo_zero (p : List Nat) (c t : Nat) :
    vecUpTo p c t 0 = List.replicate t none := by
  apply List.ext_getElem?
  intro i
  by_cases h : i < t
  · simp [vecUpTo, List.getElem?_map, List.getElem?_range, h,
      List.getElem?_replicate]
  · rw [List.getElem?_eq_none (by simp [vecUpTo]; omega),
      List.getElem?_eq_none (by simp; omega)]

theorem vecUpTo_set (p : List Nat) (c t j : Nat) (hj : j < t) :
    (vecUpTo p c t j).set j (some (sliceAt p c j)) = vecUpTo p c t (j + 1) := by
  apply List.ext_getElem?
  intro i
  rw [List.getElem?_set]
  by_cases hij : j = i
  · subst hij
    have hlen : j < (vecUpTo p c t j).length := by simp [vecUpTo]; omega
    simp [hlen, vecUpTo, List.getElem?_map, List.getElem?_range, hj]
  · rw [if_neg hij]
    by_cases hi : i < t
    · have hiff : (i < j) = (i < j + 1) := by
        apply propext; constructor <;> intro <;> omega
      simp [vecUpTo, List.getElem?_map, List.getElem?_range, hi, hiff]
    · rw [List.getElem?_eq_none (by simp [vecUpTo]; omega),
        List.getElem?_eq_none (by simp [vecUpTo]; omega)]

theorem vecUpTo_all_false (p : List Nat) (c t j : Nat) (hj : j < t) :
    (vecUpTo p c t j).all Option.isSome = false := by
  by_contra h
  have hall : (vecUpTo p c t j).all Option.isSome = true := by
    cases hb : (vecUpTo p c t j).all Option.isSome
    · exact absurd hb h
    · rfl
  rw [List.all_eq_true] at hall
  have hmem : (none : Option (List Nat)) ∈ vecUpTo p c t j := by
    have : (vecUpTo p c t j)[j]? = some none := by
      simp [vecUpTo, List.getElem?_map, List.getElem?_range, hj]
    have h2 := List.getElem?_eq_some.mp this
    obtain ⟨hlt, heq⟩ := h2
    rw [← heq]
    exact List.getElem_mem hlt
  have := hall none hmem
  simp at this

theorem vecUpTo_all_true (p : List Nat) (c t : Nat) :
    (vecUpTo p c t t).all Option.isSome = true := by
  rw [List.all_eq_true]
  intro x hx
  simp only [vecUpTo, List.mem_map, List.mem_range] at hx
  obtain ⟨i, hi, hxeq⟩ := hx
  rw [← hxeq]
  simp [hi]

theorem assembleParts_vecUpTo (p : List Nat) (c t : Nat) :
    assembleParts (vecUpTo p c t t) = p.take (c * t) := by
  unfold assembleParts vecUpTo
  rw [List.map_map]
  have : ((List.range t).map ((fun o => Option.getD o []) ∘
      fun i => if i < t then some (sliceAt p c i) else none))
      = (List.range t).map fun i => (p.drop (c * i)).take c := by
    apply List.map_congr_left
    intro i hi
    rw [List.mem_range] at hi
    simp [hi, sliceAt, fragSlice_eq_take]
  rw [this, flatten_chunks]

/-- Case characterization of the part count. -/
theorem fragTotal_char (len c : Nat) :
    fragTotal len c
      = if len % c > 0 then len / c + 1
        else if len / c = 0 then 1 else len / c := by
  simp only [fragTotal]
  generalize len / c = q
  generalize len % c = r
  by_cases hrp : r > 0
  · rw [if_pos hrp, if_pos hrp, if_neg (by omega : ¬ q + 1 = 0)]
  · rw [if_neg hrp, if_neg hrp]
    by_cases hq0 : q = 0
    · rw [if_pos (by omega : q + 0 = 0), if_pos hq0]
    · rw [if_neg (by omega : ¬ q + 0 = 0), if_neg hq0]
      omega

theorem fragTotal_pos (len c : Nat) : 0 < fragTotal len c := by
  rw [fragTotal_char]
  generalize len / c = q
  generalize len % c = r
  by_cases hrp : r > 0
  · rw [if_pos hrp]; omega
  · rw [if_neg hrp]
    by_cases hq0 : q = 0
    · rw [if_pos hq0]; omega
    · rw [if_neg hq0]; omega

theorem fragTotal_mul_ge (len c : Nat) (hc : 0 < c) :
    len ≤ c * fragTotal len c := by
  have h3 : c * (len / c) + len % c = len := Nat.div_add_mod len c
  have hlt : len % c < c := Nat.mod_lt len hc
  rw [fragTotal_char]
  generalize len / c = q at h3 ⊢
  generalize len % c = r at h3 hlt ⊢
  by_cases hrp : r > 0
  · rw [if_pos hrp]
    have h2 : c * (q + 1) = c * q + c := by ring
    rw [h2]
    generalize c * q = X at h3 ⊢
    omega
  · rw [if_neg hrp]
    by_cases hq0 : q = 0
    · rw [if_pos hq0]
      subst hq0
      simp only [Nat.mul_zero, Nat.zero_add] at h3
      omega
    · rw [if_neg hq0]
      generalize c * q = X at h3 ⊢
      omega

/-- The three header fields of a well-formed frame decode to the values
that were encoded, and the remaining bytes are the chunk data. -/
theorem parseMessage_newMessage (id part total : Nat) (data : List Nat)
    (hid : id < 2 ^ 32) (hp : part < 256) (ht : total < 256) :
    parseMessage (newMessage id part total data)
      = if part ≥ total then none else some (id, part, total, data) := by
  have l0 := putUvarint_length_le_of_lt_2_32 id hid
  have l1 := putUvarint_length_le_of_lt_256 part hp
  have l2 := putUvarint_length_le_of_lt_256 total ht
  have h0 : uvarint (putUvarint id ++ (putUvarint part ++ (putUvarint total ++ data)))
      = some (id, (putUvarint id).length) := uvarint_spec id _ (by omega)
  have e1 : (putUvarint id ++ (putUvarint part ++ (putUvarint total ++ data))).drop
      (putUvarint id).length = putUvarint part ++ (putUvarint total ++ data) :=
    List.drop_left _ _
  have h1 : uvarint (putUvarint part ++ (putUvarint total ++ data))
      = some (part, (putUvarint part).length) := uvarint_spec part _ (by omega)
  have e2 : (putUvarint id ++ (putUvarint part ++ (putUvarint total ++ data))).drop
      ((putUvarint id).length + (putUvarint part).length)
      = putUvarint total ++ data := by
    rw [← List.drop_drop, e1]
    exact List.drop_left _ _
  have h2 : uvarint (putUvarint total ++ data)
      = some (total, (putUvarint total).length) := uvarint_spec total _ (by omega)
  have e3 : (putUvarint id ++ (putUvarint part ++ (putUvarint total ++ data))).drop
      ((putUvarint id).length + (putUvarint part).length + (putUvarint total).length)
      = data := by
    rw [← List.drop_drop, e2]
    exact List.drop_left _ _
  have hnm : newMessage id part total data
      = putUvarint id ++ (putUvarint part ++ (putUvarint total ++ data)) := by
    unfold newMessage
    rw [List.append_assoc, List.append_assoc]
  rw [hnm]
  simp only [parseMessage, uvarint3, h0, e1, h1, e2, h2, e3]
  rw [Nat.mod_eq_of_lt hid, Nat.mod_eq_of_lt hp, Nat.mod_eq_of_lt ht]

theorem parse_newMessage (id part total : Nat) (data : List Nat)
    (hid : id < 2 ^ 32) (hp : part < 256) (ht : total < 256) (hlt : part < total) :
    parseMessage (newMessage id part total data) = some (id, part, total, data) := by
  rw [parseMessage_newMessage id part total data hid hp ht]
  rw [if_neg (by omega : ¬ part ≥ total)]

theorem parse_newMessage_reject (id part total : Nat) (data : List Nat)
    (hid : id < 2 ^ 32) (hp : part < 256) (ht : total < 256) (hge : part ≥ total) :
    parseMessage (newMessage id part total data) = none := by
  rw [parseMessage_newMessage id part total data hid hp ht]
  rw [if_pos hge]

theorem runLoop_nil (aggs : List (Nat × List (Option (List Nat)))) :
    runLoop aggs [] = [] := rfl

theorem runLoop_cons (aggs : List (Nat × List (Option (List Nat))))
    (m : List Nat) (ms : List (List Nat)) :
    runLoop aggs (m :: ms)
      = (stepTell aggs m).2.toList ++ runLoop (stepTell aggs m).1 ms := rfl

/-- If every arriving payload fails to parse, `handleTell` delivers
nothing upward. -/
theorem runLoop_all_rejected (msgs : List (List Nat)) :
    ∀ (aggs : List (Nat × List (Option (List Nat)))),
    (∀ m ∈ msgs, parseMessage m = none) → runLoop aggs msgs = [] := by
  induction msgs with
  | nil => intro aggs _; rfl
  | cons m ms ih =>
    intro aggs hall
    rw [runLoop_cons]
    have hm : parseMessage m = none := hall m (List.mem_cons_self m ms)
    simp only [stepTell, hm]
    simp only [Option.toList, List.nil_append]
    exact ih aggs (fun x hx => hall x (List.mem_cons_of_mem m hx))

theorem stepTell_first (p : List Nat) (c t i32 : Nat)
    (ht2 : 2 ≤ t) (h255 : t ≤ 255) (hi32 : i32 < 2 ^ 32) :
    stepTell [] (newMessage i32 0 t (sliceAt p c 0))
      = ([(i32, vecUpTo p c t 1)], none) := by
  have hparse := parse_newMessage i32 0 t (sliceAt p c 0) hi32 (by omega)
    (by omega) (by omega)
  simp only [stepTell, hparse]
  rw [if_neg (by omega : ¬ t = 1)]
  simp only [aggLookup]
  rw [← vecUpTo_zero p c t, vecUpTo_set p c t 0 (by omega)]
  rw [vecUpTo_all_false p c t 1 (by omega)]
  simp [aggInsert]

theorem stepTell_mid (p : List Nat) (c t i32 j : Nat)
    (h255 : t ≤ 255) (hi32 : i32 < 2 ^ 32) (hjt : j + 1 < t) :
    stepTell [(i32, vecUpTo p c t j)] (newMessage i32 j t (sliceAt p c j))
      = ([(i32, vecUpTo p c t (j + 1))], none) := by
  have hparse := parse_newMessage i32 j t (sliceAt p c j) hi32 (by omega)
    (by omega) (by omega)
  have hlook : aggLookup i32 [(i32, vecUpTo p c t j)] = some (vecUpTo p c t j) := by
    simp [aggLookup]
  simp only [stepTell, hparse, hlook]
  rw [if_neg (by omega : ¬ t = 1)]
  rw [vecUpTo_set p c t j (by omega)]
  rw [vecUpTo_all_false p c t (j + 1) (by omega)]
  simp [aggInsert]

theorem stepTell_last (p : List Nat) (c t i32 : Nat)
    (hc : 0 < c) (ht2 : 2 ≤ t) (h255 : t ≤ 255) (hi32 : i32 < 2 ^ 32)
    (htot : t = fragTotal p.length c) :
    stepTell [(i32, vecUpTo p c t (t - 1))]
      (newMessage i32 (t - 1) t (sliceAt p c (t - 1))) = ([], some p) := by
  have hparse := parse_newMessage i32 (t - 1) t (sliceAt p c (t - 1)) hi32
    (by omega) (by omega) (by omega)
  have hlook : aggLookup i32 [(i32, vecUpTo p c t (t - 1))]
      = some (vecUpTo p c t (t - 1)) := by
    simp [aggLookup]
  simp only [stepTell, hparse, hlook]
  rw [if_neg (by omega : ¬ t = 1)]
  rw [vecUpTo_set p c t (t - 1) (by omega)]
  have ht1 : t - 1 + 1 = t := by omega
  rw [ht1]
  rw [vecUpTo_all_true p c t]
  simp only [if_true, aggErase, if_pos rfl]
  rw [assembleParts_vecUpTo]
  rw [List.take_of_length_le]
  rw [htot]
  exact fragTotal_mul_ge p.length c hc

theorem c2_run_from (p : List Nat) (c t i32 : Nat)
    (hc : 0 < c) (ht2 : 2 ≤ t) (h255 : t ≤ 255) (hi32 : i32 < 2 ^ 32)
    (htot : t = fragTotal p.length c) :
    ∀ (k j : Nat), 1 ≤ k → 1 ≤ j → j + k = t →
      runLoop [(i32, vecUpTo p c t j)]
        ((List.range' j k).map fun part => newMessage i32 part t (sliceAt p c part))
        = [p] := by
  intro k
  induction k with
  | zero => intro j _ h1 h2; omega
  | succ k ih =>
    intro j hk1 hj1 hjk
    rw [List.range'_succ, List.map_cons]
    cases k with
    | zero =>
      have hjt : j = t - 1 := by omega
      subst hjt
      rw [runLoop]
      rw [stepTell_last p c t i32 hc ht2 h255 hi32 htot]
      simp [runLoop]
    | succ k =>
      rw [runLoop]
      rw [stepTell_mid p c t i32 j h255 hi32 (by omega)]
      simp only [Option.toList, List.nil_append]
      exact ih (j + 1) (by omega) (by omega) (by omega)

/-- Claim C2 (amended): for every payload `p`, every positive chunk size
and any message id, fragmenting as `swarm.Tell` does and feeding the
fragments in part order through `handleTell` delivers exactly `p`,
exactly once — provided the part count `max(1, ceil(len/chunk))` is at
most `255` (the `uint8` range of the wire `part`/`total` fields). -/
theorem c2_fragment_assemble_roundtrip (p : List Nat) (c idv : Nat)
    (hc : 0 < c) (h255 : fragTotal p.length c ≤ 255) :
    runTells (fragTell idv c p) = [p] := by
  have hi32 : idv % 2 ^ 32 < 2 ^ 32 := Nat.mod_lt idv (by norm_num)
  by_cases ht1 : fragTotal p.length c = 1
  · simp only [fragTell, runTells]
    rw [if_pos ht1]
    have hparse := parse_newMessage (idv % 2 ^ 32) 0 1 p hi32 (by omega)
      (by omega) (by omega)
    rw [runLoop_cons]
    simp only [stepTell, hparse, if_pos rfl]
    simp [runLoop_nil]
  · have ht2 : 2 ≤ fragTotal p.length c := by
      have := fragTotal_pos p.length c
      omega
    simp only [fragTell, runTells]
    rw [if_neg ht1]
    have hmap : (List.range (fragTotal p.length c)).map
          (fun part => newMessage (idv % 2 ^ 32) (part % 256)
            (fragTotal p.length c % 256) (fragSlice p c (c * part)))
        = (List.range (fragTotal p.length c)).map
          (fun part => newMessage (idv % 2 ^ 32) part (fragTotal p.length c)
            (sliceAt p c part)) := by
      apply List.map_congr_left
      intro a ha
      rw [List.mem_range] at ha
      rw [Nat.mod_eq_of_lt (by omega : a < 256),
        Nat.mod_eq_of_lt (by omega : fragTotal p.length c < 256)]
      rfl
    rw [hmap]
    obtain ⟨t', htp⟩ : ∃ t', fragTotal p.length c = t' + 1 :=
      ⟨fragTotal p.length c - 1, by omega⟩
    rw [htp] at ht1 ht2 h255 ⊢
    rw [List.range_eq_range', List.range'_succ, List.map_cons]
    rw [runLoop_cons]
    rw [stepTell_first p c (t' + 1) (idv % 2 ^ 32) ht2 h255 hi32]
    simp only [Option.toList, List.nil_append]
    exact c2_run_from p c (t' + 1) (idv % 2 ^ 32) hc ht2 h255 hi32
      (by omega) t' 1 (by omega) (by omega) (by omega)

/-- Claim C2 (counterexample): with chunk size 1 and a 256-byte payload the
part count is 256, the wire `total` field truncates (`uint8(256) = 0`), every
fragment fails the `part >= total` check, and nothing at all is delivered:
the round trip does not return the payload, refuting the claim for
arbitrary payloads and positive chunk sizes. -/
theorem c2_claim_counterexample :
    runTells (fragTell 0 1 (List.replicate 256 0)) = [] ∧
      runTells (fragTell 0 1 (List.replicate 256 0)) ≠ [List.replicate 256 0] := by
  have htot : fragTotal (List.replicate 256 (0 : Nat)).length 1 = 256 := by
    simp only [List.length_replicate]
    decide
  have hmain : runTells (fragTell 0 1 (List.replicate 256 0)) = [] := by
    simp only [fragTell, runTells]
    rw [htot]
    rw [if_neg (by decide : ¬ (256 : Nat) = 1)]
    apply runLoop_all_rejected
    intro m hm
    rw [List.mem_map] at hm
    obtain ⟨a, ha, rfl⟩ := hm
    rw [List.mem_range] at ha
    exact parse_newMessage_reject _ _ _ _ (by decide)
      (Nat.mod_lt a (by decide)) (by decide) (by omega)
  refine ⟨hmain, ?_⟩
  rw [hmain]
  exact fun h => List.noConfusion h

/-- Claim C7 (amended): `parseMessage` fails whenever any of the three
uvarint header reads fails, and whenever the `uint8`-truncated part is at
least the `uint8`-truncated total; every accepted message satisfies
`part < total` with both below 256.  (The comparison happens after the
`uint8` conversions, not on the raw wire values.) -/
theorem c7_parse_rejection (x : List Nat) :
    (uvarint3 x = none → parseMessage x = none)
    ∧ (∀ f0 f1 f2 n, uvarint3 x = some ((f0, f1, f2), n) →
        f1 % 256 ≥ f2 % 256 → parseMessage x = none)
    ∧ (∀ id part total data, parseMessage x = some (id, part, total, data) →
        part < total ∧ part < 256 ∧ total < 256) := by
  refine ⟨?_, ?_, ?_⟩
  · intro h
    simp only [parseMessage, h]
  · intro f0 f1 f2 n h hge
    simp only [parseMessage, h]
    rw [if_pos hge]
  · intro id part total data h
    simp only [parseMessage] at h
    cases hu : uvarint3 x with
    | none => rw [hu] at h; exact absurd h (by simp)
    | some v =>
      obtain ⟨⟨f0, f1, f2⟩, n⟩ := v
      rw [hu] at h
      simp only at h
      by_cases hge : f1 % 256 ≥ f2 % 256
      · rw [if_pos hge] at h
        exact absurd h (by simp)
      · rw [if_neg hge] at h
        rw [Option.some.injEq, Prod.mk.injEq, Prod.mk.injEq, Prod.mk.injEq] at h
        obtain ⟨h0, hp, ht, hd⟩ := h
        subst hp
        subst ht
        refine ⟨by omega, Nat.mod_lt f1 (by omega), Nat.mod_lt f2 (by omega)⟩

theorem c7_parse_rejection_witness :
    (0 : Nat) < 1 ∧ (0 : Nat) < 256 ∧ (1 : Nat) < 256 :=
  (c7_parse_rejection [0, 0, 1]).2.2 0 0 1 [] (by decide)

/-- Claim C7 (counterexample): the byte string
`uvarint(0) || uvarint(256) || uvarint(1)` has wire-encoded part value 256,
which is at least the wire-encoded total value 1, yet `parseMessage`
accepts it (the `uint8` truncation turns the part into 0 before the
comparison).  This refutes the claim that every such message errors. -/
theorem c7_claim_counterexample :
    putUvarint 0 ++ putUvarint 256 ++ putUvarint 1 = [0, 128, 2, 1]
    ∧ parseMessage [0, 128, 2, 1] = some (0, 0, 1, [])
    ∧ (256 : Nat) ≥ 1 := by
  refine ⟨?_, by decide, by decide⟩
  simp [putUvarint]

/-- Claim C2 witness: a 5-byte payload with chunk size 2 (3 parts) round
trips. -/
theorem c2_roundtrip_witness :
    0 < 2 ∧ fragTotal ([1, 2, 3, 4, 5] : List Nat).length 2 ≤ 255
      ∧ runTells (fragTell 7 2 [1, 2, 3, 4, 5]) = [[1, 2, 3, 4, 5]] :=
  ⟨by decide, by decide,
    c2_fragment_assemble_roundtrip [1, 2, 3, 4, 5] 2 7 (by decide) (by decide)⟩

/-- Claim C1 (code bug): with no ready session and all `MaxDialAttempts`
dial attempts failing, `withAnyReadySession` returns a nil error without
ever invoking the caller: `Tell` reports success though the payload was
never handed to the underlying swarm.  The `sess, err :=` short
declaration inside the dial loop shadows the outer `err`, so the final
`return err` returns nil. -/
theorem c1_tell_silent_failure :
    withAnyReadySession none 0 (List.replicate MaxDialAttempts none)
      (fun _ => some NoiseErr.fnFailed)
      = ⟨none, false⟩ := by decide

/-- Claim C4 (counterexample): a fragmenting swarm configured with MTU
1024 over a lower swarm with MTU 16 violates
`U.MTU(a) + overhead_U ≤ L.MTU(lower(a))`. -/
theorem c4_claim_counterexample :
    ¬ (fragMTU 1024 16 + fragOverhead ≤ 16) := by decide

/-- Claim C4 (amended): the Noise and multiplexer-channel overlays
satisfy `U.MTU + overhead_U ≤ L.MTU` (with equality) and report a
positive MTU whenever the lower MTU exceeds their overhead; the
fragmenting swarm instead reports its configured MTU, unconstrained by
the lower MTU. -/
theorem c4_mtu_amended (lowerMTU channelSize configured : Int) :
    noiseMTU lowerMTU + noiseOverhead ≤ lowerMTU
    ∧ muxChannelMTU channelSize lowerMTU + channelSize ≤ lowerMTU
    ∧ (noiseOverhead < lowerMTU → 0 < noiseMTU lowerMTU)
    ∧ (channelSize < lowerMTU → 0 < muxChannelMTU channelSize lowerMTU)
    ∧ fragMTU configured lowerMTU = configured := by
  unfold noiseMTU muxChannelMTU fragMTU noiseOverhead
  refine ⟨by omega, by omega, by omega, by omega, rfl⟩

theorem c4_mtu_witness :
    0 < noiseMTU 100 ∧ 0 < muxChannelMTU 5 100 :=
  ⟨(c4_mtu_amended 100 5 0).2.2.1 (by decide),
    (c4_mtu_amended 100 5 0).2.2.2.1 (by decide)⟩

/-- Claim C8 (counterexample): closing a dynmux channel does not close
the swarm below it. -/
theorem c8_claim_counterexample :
    CloseEffect.lowerClose ∉ muxChannelCloseCalls := by decide

/-- Claim C8 (amended): the Noise and fragmenting overlays close the
swarm immediately below them; the multiplexer channel closes only its
own hubs and leaves the shared underlying swarm open. -/
theorem c8_close_amended :
    CloseEffect.lowerClose ∈ noiseCloseCalls
    ∧ CloseEffect.lowerClose ∈ fragCloseCalls
    ∧ CloseEffect.lowerClose ∉ muxChannelCloseCalls
    ∧ CloseEffect.askHubClose ∈ muxChannelCloseCalls
    ∧ CloseEffect.tellHubClose ∈ muxChannelCloseCalls := by decide

/-- Claim C9 (counterexample): with a lower MTU of 10 (below the overhead
of 15) `swarm.Tell` neither divides by zero nor slices out of range — the
negative `underMTU` makes `total` non-positive, the part loop body never
runs, and the message is silently not sent.  So safety does not require
`lower.MTU > Overhead`. -/
theorem c9_claim_counterexample :
    fragSliceBounds 5 10 = some [] ∧ ¬ (fragOverhead < (10 : Int)) := by
  exact ⟨by decide, by decide⟩

/-- Claim C9 (amended): `swarm.Tell` divides by zero exactly when
`lower.MTU = Overhead` (15); when `lower.MTU > Overhead` every slice
`data[start:end]` the part loop computes satisfies
`0 ≤ start ≤ end ≤ len(data)`; when `lower.MTU < Overhead` the part loop
never slices at all. -/
theorem c9_tell_arith_safety (dataLen : Nat) (lowerMTU : Int) :
    ((fragSliceBounds dataLen lowerMTU).isSome ↔ lowerMTU ≠ fragOverhead)
    ∧ (fragOverhead < lowerMTU →
        ∀ se ∈ (fragSliceBounds dataLen lowerMTU).getD [],
          0 ≤ se.1 ∧ se.1 ≤ se.2 ∧ se.2 ≤ (dataLen : Int))
    ∧ (lowerMTU < fragOverhead → fragSliceBounds dataLen lowerMTU = some []) := by
  have hfo : fragOverhead = 15 := by decide
  refine ⟨?_, ?_, ?_⟩
  · simp only [fragSliceBounds, fragUnderMTU, hfo]
    by_cases h0 : lowerMTU - 15 = 0
    · rw [if_pos h0]
      simp only [Option.isSome_none, Bool.false_eq_true, false_iff, ne_eq,
        Decidable.not_not]
      omega
    · rw [if_neg h0]
      constructor
      · intro _; omega
      · intro _
        by_cases ht1 : (if Int.tdiv (dataLen : Int) (lowerMTU - 15)
            + (if 0 < Int.tmod (dataLen : Int) (lowerMTU - 15) then 1 else 0) = 0
            then (1 : Int)
            else Int.tdiv (dataLen : Int) (lowerMTU - 15)
              + (if 0 < Int.tmod (dataLen : Int) (lowerMTU - 15) then 1 else 0)) = 1
        · rw [if_pos ht1]; rfl
        · rw [if_neg ht1]; rfl
  · intro hlt se hse
    have hu : 0 < lowerMTU - 15 := by omega
    simp only [fragSliceBounds, fragUnderMTU, hfo] at hse
    rw [if_neg (by omega : ¬ lowerMTU - 15 = 0)] at hse
    set under : Int := lowerMTU - 15 with hunder
    set un : Nat := under.toNat with hun
    have huc : (un : Int) = under := Int.toNat_of_nonneg (by omega)
    have hD : Int.tdiv (dataLen : Int) under = ((dataLen / un : Nat) : Int) := by
      rw [← huc]; rfl
    have hM : Int.tmod (dataLen : Int) under = ((dataLen % un : Nat) : Int) := by
      rw [← huc]; rfl
    have hun0 : 0 < un := by omega
    have hnat : un * (dataLen / un) + dataLen % un = dataLen :=
      Nat.div_add_mod dataLen un
    have hmlt : dataLen % un < un := Nat.mod_lt dataLen hun0
    set t0 : Int := Int.tdiv (dataLen : Int) under
      + (if 0 < Int.tmod (dataLen : Int) under then 1 else 0) with ht0
    by_cases h1 : (if t0 = 0 then (1 : Int) else t0) = 1
    · rw [if_pos h1] at hse
      simp at hse
    · rw [if_neg h1] at hse
      set total : Int := if t0 = 0 then (1 : Int) else t0 with htotal
      simp only [Option.getD_some] at hse
      rw [List.mem_map] at hse
      obtain ⟨k, hk, rfl⟩ := hse
      rw [List.mem_range] at hk
      have ht00 : ¬ t0 = 0 := by
        intro h
        apply h1
        rw [htotal, if_pos h]
      have htot_eq : total = t0 := by rw [htotal, if_neg ht00]
      have ht0nn : 0 ≤ t0 := by
        rw [ht0, hD]
        have : (0 : Int) ≤ ((dataLen / un : Nat) : Int) := Int.natCast_nonneg _
        by_cases hm : 0 < Int.tmod (dataLen : Int) under
        · rw [if_pos hm]; omega
        · rw [if_neg hm]; omega
      have hkt : (k : Int) ≤ total - 1 := by
        have h2 : (k : Int) < ((total.toNat : Nat) : Int) := by
          exact_mod_cast hk
        rw [Int.toNat_of_nonneg (by omega)] at h2
        omega
      have hstart_le : under * (k : Int) ≤ under * (total - 1) :=
        mul_le_mul_of_nonneg_left hkt (by omega)
      have hfar : under * (total - 1) ≤ (dataLen : Int) := by
        rw [htot_eq, ht0]
        have hDM : under * Int.tdiv (dataLen : Int) under
            + Int.tmod (dataLen : Int) under = (dataLen : Int) :=
          Int.tdiv_add_tmod (dataLen : Int) under
        by_cases hm : 0 < Int.tmod (dataLen : Int) under
        · rw [if_pos hm]
          have he : Int.tdiv (dataLen : Int) under + 1 - 1
              = Int.tdiv (dataLen : Int) under := by omega
          rw [he]
          generalize under * Int.tdiv (dataLen : Int) under = X at hDM ⊢
          omega
        · rw [if_neg hm]
          have hm0 : 0 ≤ Int.tmod (dataLen : Int) under := by
            rw [hM]; exact Int.natCast_nonneg _
          have he : under * (Int.tdiv (dataLen : Int) under + 0 - 1)
              = under * Int.tdiv (dataLen : Int) under - under := by ring
          rw [he]
          generalize under * Int.tdiv (dataLen : Int) under = X at hDM ⊢
          omega
      have hs0 : (0 : Int) ≤ under * (k : Int) :=
        mul_nonneg (by omega) (Int.natCast_nonneg k)
      have hslen : under * (k : Int) ≤ (dataLen : Int) := le_trans hstart_le hfar
      refine ⟨hs0, ?_, ?_⟩
      · by_cases he : under * (k : Int) + under < (dataLen : Int)
        · rw [if_pos he]
          omega
        · rw [if_neg he]
          exact hslen
      · by_cases he : under * (k : Int) + under < (dataLen : Int)
        · rw [if_pos he]
          omega
        · rw [if_neg he]
  · intro hlt
    have hu : lowerMTU - 15 < 0 := by omega
    simp only [fragSliceBounds, fragUnderMTU, hfo]
    rw [if_neg (by omega : ¬ lowerMTU - 15 = 0)]
    set under : Int := lowerMTU - 15 with hunder
    have hDn : Int.tdiv (dataLen : Int) under ≤ 0 := by
      set vn : Nat := (-under).toNat with hvn0
      have hvn : (vn : Int) = -under := Int.toNat_of_nonneg (by omega)
      have hvneg : under = -(vn : Int) := by omega
      rw [hvneg, Int.tdiv_neg]
      have hcast : Int.tdiv (dataLen : Int) (vn : Int)
          = ((dataLen / vn : Nat) : Int) := rfl
      rw [hcast]
      have h3 : (0 : Int) ≤ ((dataLen / vn : Nat) : Int) := Int.natCast_nonneg _
      omega
    set t0 : Int := Int.tdiv (dataLen : Int) under
      + (if 0 < Int.tmod (dataLen : Int) under then 1 else 0) with ht0
    have ht01 : t0 ≤ 1 := by
      rw [ht0]
      by_cases hm : 0 < Int.tmod (dataLen : Int) under
      · rw [if_pos hm]; omega
      · rw [if_neg hm]; omega
    by_cases h1 : (if t0 = 0 then (1 : Int) else t0) = 1
    · rw [if_pos h1]
    · rw [if_neg h1]
      have ht00 : ¬ t0 = 0 := by
        intro h
        apply h1
        rw [if_pos h]
      have htneg : (if t0 = 0 then (1 : Int) else t0) = t0 := if_neg ht00
      have ht0neg : t0 ≤ 0 := by
        by_contra hc
        apply h1
        rw [htneg]
        omega
      have : (if t0 = 0 then (1 : Int) else t0).toNat = 0 := by
        rw [htneg]
        omega
      rw [this]
      rfl

theorem c9_tell_arith_safety_witness :
    fragSliceBounds 5 14 = some [] :=
  (c9_tell_arith_safety 5 14).2.2 (by decide)

/-! ## Cache invariant (claim C3) -/

theorem sum_map_length_set (bs : List (List α)) :
    ∀ (n : Nat) (x : List α), n < bs.length →
    ((bs.set n x).map List.length).sum + (bs.getD n []).length
      = (bs.map List.length).sum + x.length := by
  induction bs with
  | nil => intro n x h; simp at h
  | cons b bs ih =>
    intro n x h
    cases n with
    | zero => simp [List.set]; omega
    | succ n =>
      simp only [List.set, List.map_cons, List.sum_cons, List.getD_cons_succ]
      have := ih n x (by simpa using h)
      omega

theorem sum_map_length_append_replicate (bs : List (List α)) (k : Nat) :
    ((bs ++ List.replicate k ([] : List α)).map List.length).sum
      = (bs.map List.length).sum := by
  simp

theorem bucketInsert_length (b : List (Entry V)) (e : Entry V) :
    (bucketInsert b e).length
      = if b.any (fun x => x.key == e.key) then b.length else b.length + 1 := by
  unfold bucketInsert
  by_cases h : b.any (fun x => x.key == e.key)
  · rw [if_pos h, if_pos h, List.length_map]
  · rw [if_neg h, if_neg h, List.length_cons]

theorem evictIdx_spec (mn : Int) (bs : List (List (Entry V))) :
    ∀ (n : Nat), evictIdx mn bs = some n →
      n < bs.length ∧ (bs.getD n []).length ≠ 0
        ∧ mn < ((bs.getD n []).length : Int) := by
  induction bs with
  | nil => intro n h; simp [evictIdx] at h
  | cons b bs ih =>
    intro n h
    unfold evictIdx at h
    by_cases hc : mn < (b.length : Int) ∧ b.length ≠ 0
    · rw [if_pos hc] at h
      have : n = 0 := by
        have := (Option.some.injEq _ _).mp h
        omega
      subst this
      refine ⟨by simp, ?_, ?_⟩
      · simpa only [List.getD_cons_zero] using hc.2
      · simpa only [List.getD_cons_zero] using hc.1
    · rw [if_neg hc] at h
      rw [Option.map_eq_some'] at h
      obtain ⟨m, hm, hn⟩ := h
      have := ih m hm
      subst hn
      simpa using this

theorem evictIdx_isSome (mn : Int) (bs : List (List (Entry V)))
    (hmn : mn ≤ 0) (hex : ∃ b ∈ bs, b.length ≠ 0) :
    (evictIdx mn bs).isSome = true := by
  induction bs with
  | nil => simp at hex
  | cons b bs ih =>
    unfold evictIdx
    by_cases hc : mn < (b.length : Int) ∧ b.length ≠ 0
    · rw [if_pos hc]; rfl
    · rw [if_neg hc]
      obtain ⟨x, hx, hxl⟩ := hex
      rw [List.mem_cons] at hx
      cases hx with
      | inl hxb =>
        subst hxb
        exfalso
        apply hc
        exact ⟨by omega, hxl⟩
      | inr hxbs =>
        have := ih ⟨x, hxbs, hxl⟩
        rw [Option.isSome_map']
        exact this

theorem sum_pos_exists (bs : List (List α))
    (h : 0 < (bs.map List.length).sum) : ∃ b ∈ bs, b.length ≠ 0 := by
  induction bs with
  | nil => simp at h
  | cons b bs ih =>
    simp only [List.map_cons, List.sum_cons] at h
    by_cases hb : b.length = 0
    · rw [hb] at h
      simp only [Nat.zero_add] at h
      obtain ⟨x, hx, hxl⟩ := ih h
      exact ⟨x, List.mem_cons_of_mem b hx, hxl⟩
    · exact ⟨b, List.mem_cons_self b bs, hb⟩

theorem evict_spec (kc : Cache V) (h : kc.count = (sizeSum kc : Int)) :
    ((kc.evict).1.locus = kc.locus
      ∧ (kc.evict).1.minPerBucket = kc.minPerBucket
      ∧ (kc.evict).1.max = kc.max)
    ∧ (kc.evict).1.count = (sizeSum (kc.evict).1 : Int)
    ∧ ((kc.evict).2.isSome → (kc.evict).1.count = kc.count - 1)
    ∧ (kc.minPerBucket ≤ 0 → 0 < sizeSum kc → (kc.evict).2.isSome) := by
  cases hidx : evictIdx kc.minPerBucket kc.buckets with
  | none =>
    have hev : kc.evict = (kc, none) := by
      unfold Cache.evict
      simp only [hidx]
    rw [hev]
    refine ⟨⟨rfl, rfl, rfl⟩, h, by simp, ?_⟩
    intro hmn hpos
    exfalso
    have hex := sum_pos_exists kc.buckets hpos
    have := evictIdx_isSome kc.minPerBucket kc.buckets hmn hex
    rw [hidx] at this
    simp at this
  | some n =>
    obtain ⟨hlt, hne, _⟩ := evictIdx_spec kc.minPerBucket kc.buckets n hidx
    cases hb : kc.buckets.getD n [] with
    | nil => rw [hb] at hne; simp at hne
    | cons e rest =>
      have hev : kc.evict
          = (⟨kc.locus, kc.minPerBucket, kc.count - 1, kc.max,
              kc.buckets.set n ((e :: rest).eraseP fun x => x.key == e.key)⟩,
             some e) := by
        unfold Cache.evict
        simp only [hidx, hb]
      rw [hev]
      have herase : ((e :: rest).eraseP fun x => x.key == e.key) = rest := by
        simp [List.eraseP_cons]
      have hsum := sum_map_length_set kc.buckets n
        ((e :: rest).eraseP fun x => x.key == e.key) hlt
      rw [herase, hb] at hsum
      simp only [List.length_cons] at hsum
      refine ⟨⟨rfl, rfl, rfl⟩, ?_, by simp, by simp⟩
      show kc.count - 1 = _
      simp only [sizeSum] at h ⊢
      rw [herase]
      omega

theorem put_preserves (mx mn : Int) (hmx : 1 ≤ mx) (kc : Cache V)
    (key : List Nat) (v : Option V) (hinv : CacheInv mx mn kc) :
    CacheInv mx mn (kc.Put key v).1 := by
  obtain ⟨hmax, hmin, hcnt, hbound⟩ := hinv
  unfold Cache.Put
  set lz := kc.bucketIndex key with hlz
  set bs := kc.buckets ++ List.replicate (lz + 1 - kc.buckets.length) []
    with hbs
  have hbslen : lz < bs.length := by
    rw [hbs]
    simp only [List.length_append, List.length_replicate]
    omega
  have hbsum : (bs.map List.length).sum = sizeSum kc := by
    rw [hbs]
    exact sum_map_length_append_replicate kc.buckets _
  set b := bs.getD lz [] with hbdef
  set e : Entry V := ⟨key, v⟩ with he
  set cnt := if b.any (fun x => x.key == e.key) then kc.count else kc.count + 1
    with hcntdef
  set kc2 : Cache V :=
    ⟨kc.locus, kc.minPerBucket, cnt, kc.max, bs.set lz (bucketInsert b e)⟩
    with hkc2
  have hkb : kc2.buckets = bs.set lz (bucketInsert b e) := rfl
  have hkcnt : kc2.count = cnt := rfl
  have hs2 : sizeSum kc2 = ((bs.set lz (bucketInsert b e)).map List.length).sum := by
    simp only [sizeSum, hkb]
  have hset := sum_map_length_set bs lz (bucketInsert b e) hbslen
  rw [bucketInsert_length] at hset
  rw [← hbdef] at hset
  have hsum2 : kc2.count = (sizeSum kc2 : Int) := by
    rw [hkcnt, hs2, hcntdef]
    by_cases hany : b.any (fun x => x.key == e.key)
    · rw [if_pos hany]
      rw [if_pos hany] at hset
      rw [hcnt]
      have hseq : ((bs.set lz (bucketInsert b e)).map List.length).sum
          = sizeSum kc := by omega
      rw [hseq]
    · rw [if_neg hany]
      rw [if_neg hany] at hset
      rw [hcnt]
      have hseq : ((bs.set lz (bucketInsert b e)).map List.length).sum
          = sizeSum kc + 1 := by omega
      rw [hseq]
      push_cast
      ring
  have hcnt2 : cnt ≤ kc.count + 1 := by
    rw [hcntdef]
    by_cases hany : b.any (fun x => x.key == e.key)
    · rw [if_pos hany]; omega
    · rw [if_neg hany]
  by_cases hev : cnt > kc.max
  · rw [if_pos hev]
    have hspec := evict_spec kc2 hsum2
    obtain ⟨⟨hl2, hm2, hx2⟩, hsum3, hdec, hsome⟩ := hspec
    refine ⟨by rw [hx2]; exact hmax, by rw [hm2]; exact hmin, hsum3, ?_⟩
    intro hmn0
    have hsome2 : (kc2.evict).2.isSome := by
      apply hsome
      · show kc2.minPerBucket ≤ 0
        have hb2 : kc2.minPerBucket = kc.minPerBucket := rfl
        rw [hb2, hmin]
        exact hmn0
      · have h1 : (0 : Int) < kc2.count := by
          rw [hkcnt]
          omega
        rw [hsum2] at h1
        exact_mod_cast h1
    have hdec2 := hdec hsome2
    rw [hdec2, hkcnt]
    have hb0 := hbound hmn0
    omega
  · rw [if_neg hev]
    refine ⟨hmax, hmin, hsum2, ?_⟩
    intro _
    rw [hkcnt]
    omega

theorem delete_preserves (mx mn : Int) (kc : Cache V)
    (key : List Nat) (hinv : CacheInv mx mn kc) :
    CacheInv mx mn (kc.Delete key).1 := by
  obtain ⟨hmax, hmin, hcnt, hbound⟩ := hinv
  cases hbk : kc.bucket key with
  | none =>
    have hdel : kc.Delete key = (kc, none) := by
      unfold Cache.Delete
      simp only [hbk]
    rw [hdel]
    exact ⟨hmax, hmin, hcnt, hbound⟩
  | some b =>
    cases hf : bucketFind b key with
    | none =>
      have hdel : kc.Delete key = (kc, none) := by
        unfold Cache.Delete
        simp only [hbk, hf]
      rw [hdel]
      exact ⟨hmax, hmin, hcnt, hbound⟩
    | some e =>
      have hdel : kc.Delete key
          = (⟨kc.locus, kc.minPerBucket, kc.count - 1, kc.max,
              kc.buckets.set (kc.bucketIndex key)
                (b.eraseP fun x => x.key == key)⟩, some e) := by
        unfold Cache.Delete
        simp only [hbk, hf]
      rw [hdel]
      have hblt : kc.bucketIndex key < kc.buckets.length := by
        unfold Cache.bucket at hbk
        by_cases hh : kc.bucketIndex key < kc.buckets.length
        · exact hh
        · rw [if_neg hh] at hbk; exact absurd hbk (by simp)
      have hbeq : b = kc.buckets.getD (kc.bucketIndex key) [] := by
        unfold Cache.bucket at hbk
        rw [if_pos hblt] at hbk
        exact ((Option.some.injEq _ _).mp hbk).symm
      have hf2 : List.find? (fun x => x.key == key) b = some e := hf
      have hmem : e ∈ b := List.mem_of_find?_eq_some hf2
      have hpe := List.find?_some hf2
      have hlen : (b.eraseP fun x => x.key == key).length + 1 = b.length :=
        List.length_eraseP_add_one hmem hpe
      have hset := sum_map_length_set kc.buckets (kc.bucketIndex key)
        (b.eraseP fun x => x.key == key) hblt
      rw [← hbeq] at hset
      refine ⟨hmax, hmin, ?_, ?_⟩
      · show kc.count - 1 = _
        simp only [sizeSum] at hcnt ⊢
        omega
      · intro hmn0
        have := hbound hmn0
        show kc.count - 1 ≤ mx
        omega

theorem applyOps_preserves (mx mn : Int) (hmx : 1 ≤ mx)
    (ops : List (CacheOp V)) :
    ∀ (kc : Cache V), CacheInv mx mn kc → CacheInv mx mn (applyOps kc ops) := by
  induction ops with
  | nil => intro kc h; exact h
  | cons op ops ih =>
    intro kc h
    rw [applyOps, List.foldl_cons]
    apply ih
    cases op with
    | opPut key v => exact put_preserves mx mn hmx kc key v h
    | opDelete key => exact delete_preserves mx mn kc key h

/-- Claim C3 (amended): starting from a fresh cache with `max ≥ 1`, after
every sequence of `Put` and `Delete` operations `Count()` equals the sum
of all bucket sizes; and when `min_per_bucket ≤ 0`, the count moreover
never exceeds `max + 1` (in fact never exceeds `max`).  For positive
`min_per_bucket` no bound holds: eviction can fail on every insert. -/
theorem c3_cache_invariant_amended (V : Type) (locus : List Nat) (mx mn : Int)
    (hmx : 1 ≤ mx) (ops : List (CacheOp V)) :
    (applyOps (NewCache V locus mx mn) ops).Count
        = (sizeSum (applyOps (NewCache V locus mx mn) ops) : Int)
    ∧ (mn ≤ 0 → (applyOps (NewCache V locus mx mn) ops).Count ≤ mx + 1) := by
  simp only [Cache.Count]
  have hinv0 : CacheInv mx mn (NewCache V locus mx mn) := by
    refine ⟨rfl, rfl, by simp [NewCache, sizeSum], ?_⟩
    intro _
    show (0 : Int) ≤ mx
    omega
  obtain ⟨h1, h2, h3, h4⟩ :=
    applyOps_preserves mx mn hmx ops (NewCache V locus mx mn) hinv0
  refine ⟨h3, fun hmn => ?_⟩
  have := h4 hmn
  omega

theorem c3_cache_invariant_witness :
    (applyOps (NewCache Unit [0] 2 0)
        [CacheOp.opPut [1] (some ()), CacheOp.opPut [2] (some ()),
         CacheOp.opPut [3] (some ()), CacheOp.opDelete [2]]).Count
      = (sizeSum (applyOps (NewCache Unit [0] 2 0)
        [CacheOp.opPut [1] (some ()), CacheOp.opPut [2] (some ()),
         CacheOp.opPut [3] (some ()), CacheOp.opDelete [2]]) : Int)
    ∧ ((0 : Int) ≤ 0 →
        (applyOps (NewCache Unit [0] 2 0)
          [CacheOp.opPut [1] (some ()), CacheOp.opPut [2] (some ()),
           CacheOp.opPut [3] (some ()), CacheOp.opDelete [2]]).Count ≤ 2 + 1) :=
  c3_cache_invariant_amended Unit [0] 2 0 (by decide)
    [CacheOp.opPut [1] (some ()), CacheOp.opPut [2] (some ()),
     CacheOp.opPut [3] (some ()), CacheOp.opDelete [2]]

/-- Claim C3 (counterexample): `max = 1`, `min_per_bucket = 2`; after
three `Put`s of distinct keys the count is 3, exceeding `max + 1 = 2` —
eviction never fires because no bucket exceeds the floor.  This refutes
the `count ≤ max + 1` half of the claim for arbitrary `min_per_bucket`. -/
theorem c3_claim_counterexample :
    (applyOps (NewCache Unit [0] 1 2)
      [CacheOp.opPut [1] (some ()), CacheOp.opPut [2] (some ()),
       CacheOp.opPut [3] (some ())]).Count = 3
    ∧ ¬ ((3 : Int) ≤ 1 + 1) :=
  ⟨by decide, by decide⟩

/-- Claim C5 (code bug, evaluated): in a cache with locus `[0]` holding
keys `[2]` and `[3]`, the bucket consulted by `Closest([3])` is
`[[3], [2]]` (iteration order), the distance of `[3]` is lexicographically
smaller than that of `[2]`, yet `Closest([3])` returns the `[2]` entry:
`closestEntry = &e` aliases the loop variable, so the pointer refers to
the last iterated entry, not the minimizing one. -/
theorem c5_closest_returns_last :
    ((((NewCache Unit [0] 10 0).Put [2] (some ())).1.Put [3] (some ())).1).Closest [3]
        = some ⟨[2], some ()⟩
    ∧ ((((NewCache Unit [0] 10 0).Put [2] (some ())).1.Put [3] (some ())).1).bucket [3]
        = some [⟨[3], some ()⟩, ⟨[2], some ()⟩]
    ∧ bytesCompare (xorBytes 1 [3] [3]) (xorBytes 1 [2] [3]) = -1 := by
  refine ⟨by decide, by decide, by decide⟩

/-- Claim C6 (counterexample): cache `locus = [0]`, `max = 1`,
`min_per_bucket = 0`, containing key `[0x80]`.  `WouldPut([0x81])`
returns false, yet `Put([0x81])` triggers an eviction that succeeds (an
evicted entry is returned and the count stays at `max`), so the claimed
equivalence fails. -/
theorem c6_claim_counterexample :
    (((NewCache Unit [0] 1 0).Put [128] (some ())).1).WouldPut [129] = false
    ∧ ((((NewCache Unit [0] 1 0).Put [128] (some ())).1).Put [129] (some ())).2.isSome
        = true
    ∧ ((((NewCache Unit [0] 1 0).Put [128] (some ())).1).Put [129] (some ())).1.Count
        = 1 := by
  refine ⟨by decide, by decide, by decide⟩

/-- Claim C6 (amended): `WouldPut(k)` returns true exactly when the new
entry fits without eviction (`count + 1 ≤ max`), or the key bucket is not
yet materialized, or some bucket strictly below the key bucket index has
size strictly BELOW `min_per_bucket`.  This is not the same as "the put
would fit or trigger a successful eviction". -/
theorem c6_wouldput_amended (V : Type) (kc : Cache V) (key : List Nat) :
    kc.WouldPut key = true
      ↔ (kc.count + 1 ≤ kc.max ∨ kc.buckets.length ≤ kc.bucketIndex key
          ∨ ∃ j < kc.bucketIndex key,
              ((kc.buckets.getD j []).length : Int) < kc.minPerBucket) := by
  unfold Cache.WouldPut
  by_cases h : kc.count + 1 ≤ kc.max ∨ kc.bucketIndex key ≥ kc.buckets.length
  · rw [if_pos h]
    simp only [true_iff]
    rcases h with h | h
    · exact Or.inl h
    · exact Or.inr (Or.inl h)
  · rw [if_neg h]
    push_neg at h
    constructor
    · intro hany
      rw [List.any_eq_true] at hany
      obtain ⟨j, hj, hlt⟩ := hany
      rw [List.mem_range] at hj
      refine Or.inr (Or.inr ⟨j, hj, ?_⟩)
      simpa using hlt
    · intro hor
      rcases hor with h1 | h2 | ⟨j, hj, hlt⟩
      · exact absurd h1 (by omega)
      · omega
      · rw [List.any_eq_true]
        exact ⟨j, List.mem_range.mpr hj, by simpa using hlt⟩

theorem getD_append_replicate_nil (bs : List (List α)) (k lz : Nat) :
    (bs ++ List.replicate k ([] : List α)).getD lz [] = bs.getD lz [] := by
  rw [List.getD_eq_getElem?_getD, List.getD_eq_getElem?_getD,
    List.getElem?_append]
  by_cases h : lz < bs.length
  · rw [if_pos h]
  · rw [if_neg h]
    rw [List.getElem?_eq_none (by omega : bs.length ≤ lz)]
    rw [List.getElem?_replicate]
    by_cases h2 : lz - bs.length < k
    · rw [if_pos h2]
      rfl
    · rw [if_neg h2]

theorem getD_set_self (l : List (List α)) (n : Nat) (x : List α)
    (h : n < l.length) : (l.set n x).getD n [] = x := by
  rw [List.getD_eq_getElem?_getD, List.getElem?_set_self h]
  rfl

/-- Claim C10: `Put(k, nil)` stores an entry that increments the count
and occupies capacity (no eviction given room), yet `Get(k)` returns nil
and `Contains(k)` is false — `Get` cannot distinguish a stored nil value
from an absent key — and `WouldAdd(k)` therefore falls through to
`WouldPut(k)` instead of reporting the key present. -/
theorem c10_put_nil_unobservable (V : Type) (kc : Cache V) (key : List Nat)
    (habs : kc.hasKey key = false) (hroom : kc.count + 1 ≤ kc.max) :
    ((kc.Put key none).1).Count = kc.Count + 1
    ∧ ((kc.Put key none).1).Get key = none
    ∧ ((kc.Put key none).1).Contains key = false
    ∧ ((kc.Put key none).1).WouldAdd key = ((kc.Put key none).1).WouldPut key := by
  unfold Cache.hasKey at habs
  have hany : (((kc.buckets
        ++ List.replicate (kc.bucketIndex key + 1 - kc.buckets.length) []).getD
          (kc.bucketIndex key) []).any fun x => x.key == key) = false := by
    rw [getD_append_replicate_nil]
    exact habs
  have hbslen : kc.bucketIndex key
      < (kc.buckets
          ++ List.replicate (kc.bucketIndex key + 1 - kc.buckets.length) []).length := by
    simp only [List.length_append, List.length_replicate]
    omega
  have hput : kc.Put key none
      = (⟨kc.locus, kc.minPerBucket, kc.count + 1, kc.max,
          (kc.buckets
            ++ List.replicate (kc.bucketIndex key + 1 - kc.buckets.length) []).set
            (kc.bucketIndex key)
            (bucketInsert
              ((kc.buckets
                ++ List.replicate (kc.bucketIndex key + 1 - kc.buckets.length) []).getD
                (kc.bucketIndex key) [])
              ⟨key, none⟩)⟩, none) := by
    simp only [Cache.Put, hany, Bool.false_eq_true, if_false]
    rw [if_neg (by omega : ¬ kc.count + 1 > kc.max)]
  rw [hput]
  have hinsert : bucketInsert
      ((kc.buckets
        ++ List.replicate (kc.bucketIndex key + 1 - kc.buckets.length) []).getD
        (kc.bucketIndex key) []) (⟨key, none⟩ : Entry V)
      = ⟨key, none⟩ :: (kc.buckets
          ++ List.replicate (kc.bucketIndex key + 1 - kc.buckets.length) []).getD
          (kc.bucketIndex key) [] := by
    unfold bucketInsert
    rw [if_neg (by simp only [hany]; simp)]
  have hget : Cache.Get
      (⟨kc.locus, kc.minPerBucket, kc.count + 1, kc.max,
        (kc.buckets
          ++ List.replicate (kc.bucketIndex key + 1 - kc.buckets.length) []).set
          (kc.bucketIndex key)
          (bucketInsert
            ((kc.buckets
              ++ List.replicate (kc.bucketIndex key + 1 - kc.buckets.length) []).getD
              (kc.bucketIndex key) [])
            ⟨key, none⟩)⟩ : Cache V) key
      = none := by
    have hfind : bucketFind
        (⟨key, none⟩ :: (kc.buckets
          ++ List.replicate (kc.bucketIndex key + 1 - kc.buckets.length) []).getD
          (kc.bucketIndex key) []) key = some ⟨key, none⟩ := by
      unfold bucketFind
      rw [List.find?_cons_of_pos _ (by simp)]
    unfold Cache.Get Cache.bucket
    have hbi : Cache.bucketIndex
        (⟨kc.locus, kc.minPerBucket, kc.count + 1, kc.max,
          (kc.buckets
            ++ List.replicate (kc.bucketIndex key + 1 - kc.buckets.length) []).set
            (kc.bucketIndex key)
            (bucketInsert
              ((kc.buckets
                ++ List.replicate (kc.bucketIndex key + 1 - kc.buckets.length) []).getD
                (kc.bucketIndex key) [])
              ⟨key, none⟩)⟩ : Cache V) key = kc.bucketIndex key := rfl
    simp only [hbi]
    rw [if_pos (by simpa using hbslen)]
    simp only
    rw [getD_set_self _ _ _ (by simpa using hbslen)]
    rw [hinsert, hfind]
  refine ⟨rfl, hget, ?_, ?_⟩
  · unfold Cache.Contains
    rw [hget]
    rfl
  · unfold Cache.WouldAdd Cache.Contains
    rw [hget]
    rfl

theorem c10_put_nil_witness :
    (((NewCache Unit [0] 5 0).Put [1] none).1).Count = (NewCache Unit [0] 5 0).Count + 1
    ∧ (((NewCache Unit [0] 5 0).Put [1] none).1).Get [1] = none
    ∧ (((NewCache Unit [0] 5 0).Put [1] none).1).Contains [1] = false
    ∧ (((NewCache Unit [0] 5 0).Put [1] none).1).WouldAdd [1]
        = (((NewCache Unit [0] 5 0).Put [1] none).1).WouldPut [1] :=
  c10_put_nil_unobservable Unit (NewCache Unit [0] 5 0) [1] (by decide) (by decide)

end P2P

